import Mathlib

/-!
Verification of the FIA-Othello engine (`src/ai.rs`, `src/game.rs`).

The board/referee modules (`board.rs`, `referee.rs`, `common.rs`) and the
async agent types are not part of the available sources; they are modelled
from the specification (each such definition carries a doc comment starting
with "Modelled from the spec:").  All other definitions are direct shallow
embeddings of the Rust sources.

Scores in the Rust code are `f32`, but every value the search produces is an
integer (sums of integer table weights, negations and maxima thereof), all
exactly representable in `f32`; they are therefore modelled as `Int`.
`Option<f32>` alpha/beta bounds become `Option Int` (`None` = no bound).
-/

namespace Othello

/-- `Player` enum from `board.rs` (modelled from the spec: Black/White with an
involutive `opponent`). -/
inductive Player where
  | Black
  | White
deriving DecidableEq, Repr

/-- `Player::opponent` — Modelled from the spec: total involutive swap. -/
def Player.opponent : Player → Player
  | Player.Black => Player.White
  | Player.White => Player.Black

/-- `Cell` enum from `board.rs` (modelled from the spec: Empty or Taken). -/
inductive Cell where
  | Empty
  | Taken (p : Player)
deriving DecidableEq, Repr

/-- `Board` — Modelled from the spec: an 8×8 grid of cells with value
semantics.  The Rust `[[Cell; 8]; 8]` array is a total function on indices. -/
structure Board where
  grid : Fin 8 → Fin 8 → Cell

/-- `Board::SIZE` constant (used throughout the sources). -/
def Board.SIZE : Nat := 8

instance : DecidableEq Board := fun a b =>
  if h : a.grid = b.grid then
    Decidable.isTrue (by cases a; cases b; cases h; rfl)
  else
    Decidable.isFalse (fun hh => h (by cases hh; rfl))

/-- A move is a `(row, col)` pair of `usize` coordinates (`game.rs` line 21). -/
abbrev Move := Nat × Nat

/-- Reads a cell at signed coordinates, `none` when off the board.  Helper for
the direction scans of the spec-modelled referee. -/
def getCell (b : Board) (r c : Int) : Option Cell :=
  if h : 0 ≤ r ∧ r < 8 ∧ 0 ≤ c ∧ c < 8 then
    some (b.grid ⟨r.toNat, by omega⟩ ⟨c.toNat, by omega⟩)
  else
    none

/-- Modelled from the spec: one direction of `Referee::find_flip_cells_for_move`
(`referee.rs` is not in the sources).  Walks outward from the placed cell; a
direction contributes its accumulated run of opponent cells iff the run is
terminated by one of `p`'s own pieces before the edge or an empty cell.
The fuel bound 8 covers the longest in-board walk. -/
def scanDirection (b : Board) (p : Player) (dr dc : Int) :
    Nat → Int → Int → List Move → Option (List Move)
  | 0, _, _, _ => none
  | fuel + 1, r, c, acc =>
    match getCell b r c with
    | none => none
    | some Cell.Empty => none
    | some (Cell.Taken q) =>
      if q = p then some acc
      else scanDirection b p dr dc fuel (r + dr) (c + dc) (acc ++ [(r.toNat, c.toNat)])

/-- The 8 compass directions (spec §4.1). -/
def directions : List (Int × Int) :=
  [(-1, -1), (-1, 0), (-1, 1), (0, -1), (0, 1), (1, -1), (1, 0), (1, 1)]

/-- Modelled from the spec: `Referee::find_flip_cells_for_move`.  The target
cell must be empty; the flip list is the union over the 8 directions of the
sandwiched opponent runs; `legal` is true iff at least one direction flips.
Out-of-range targets are never legal (the spec restricts moves to `[0, SIZE)`). -/
def find_flip_cells_for_move (b : Board) (p : Player) (m : Move) : Bool × List Move :=
  if h : m.1 < 8 ∧ m.2 < 8 then
    match b.grid ⟨m.1, h.1⟩ ⟨m.2, h.2⟩ with
    | Cell.Taken _ => (false, [])
    | Cell.Empty =>
      let flips := directions.foldl
        (fun acc d =>
          acc ++ ((scanDirection b p d.1 d.2 8 ((m.1 : Int) + d.1) ((m.2 : Int) + d.2) []).getD []))
        []
      (!flips.isEmpty, flips)
  else
    (false, [])

/-- All 64 coordinates in row-major order (spec §4.1: row-major scan). -/
def allCoords : List Move :=
  (List.range 8).foldr (fun r acc => ((List.range 8).map (fun c => (r, c))) ++ acc) []

/-- Modelled from the spec: `Referee::find_all_valid_moves` — all legal
coordinates in row-major order; empty list when the player must pass. -/
def find_all_valid_moves (b : Board) (p : Player) : List Move :=
  allCoords.filter (fun m => (find_flip_cells_for_move b p m).1)

/-- Writes a cell (in-range coordinates only; all callers stay in range). -/
def setCell (b : Board) (m : Move) (v : Cell) : Board :=
  if _h : m.1 < 8 ∧ m.2 < 8 then
    ⟨fun i j => if (i : Nat) = m.1 ∧ (j : Nat) = m.2 then v else b.grid i j⟩
  else
    b

/-- Modelled from the spec: `Referee::apply_move` — unconditionally sets the
move cell and every flip cell to `Taken(player)`. -/
def apply_move (b : Board) (p : Player) (m : Move) (flips : List Move) : Board :=
  flips.foldl (fun acc f => setCell acc f (Cell.Taken p)) (setCell b m (Cell.Taken p))

/-- `Outcome` from `referee.rs` (modelled from the spec). -/
inductive Outcome where
  | Won (p : Player)
  | Tie
deriving DecidableEq, Repr

/-- `count_pieces` from `game.rs` (lines 349-364). -/
def count_pieces (b : Board) : Nat × Nat :=
  (List.finRange 8).foldl
    (fun acc row =>
      (List.finRange 8).foldl
        (fun acc col =>
          match b.grid row col with
          | Cell.Taken Player.Black => (acc.1 + 1, acc.2)
          | Cell.Taken Player.White => (acc.1, acc.2 + 1)
          | Cell.Empty => acc)
        acc)
    (0, 0)

/-- Modelled from the spec: `Referee::check_outcome` — strictly greater piece
count wins, equal counts tie. -/
def check_outcome (b : Board) : Outcome :=
  let counts := count_pieces b
  if counts.1 > counts.2 then Outcome.Won Player.Black
  else if counts.2 > counts.1 then Outcome.Won Player.White
  else Outcome.Tie

/-! ## `ai.rs` -/

/-- `OTHELLO_WEIGHTS` table, `ai.rs` lines 6-15 (row-major, as in the source). -/
def OTHELLO_WEIGHTS (i j : Fin 8) : Int :=
  ([[7, 2, 5, 4, 4, 5, 2, 7],
    [2, 1, 3, 3, 3, 3, 1, 2],
    [5, 3, 5, 5, 5, 5, 3, 5],
    [4, 3, 5, 6, 6, 5, 3, 4],
    [4, 3, 5, 6, 6, 5, 3, 4],
    [5, 3, 5, 5, 5, 5, 3, 5],
    [2, 1, 3, 3, 3, 3, 1, 2],
    [7, 2, 5, 4, 4, 5, 2, 7]].getD i []).getD j 0

/-- `calculate_weighted_piece_positions`, `ai.rs` lines 108-119: sums the
weights of the cells taken by `player` over the whole grid. -/
def calculate_weighted_piece_positions (b : Board) (player : Player) : Int :=
  (List.finRange 8).foldl
    (fun sum i =>
      (List.finRange 8).foldl
        (fun sum j =>
          match b.grid i j with
          | Cell.Taken p => if p = player then sum + OTHELLO_WEIGHTS i j else sum
          | Cell.Empty => sum)
        sum)
    0

/-- `calculate_heuristic`, `ai.rs` lines 104-106. -/
def calculate_heuristic (b : Board) (player : Player) : Int :=
  calculate_weighted_piece_positions b player

/-- `get_board_after_move`, `ai.rs` lines 121-138: clones the board, applies
the move via the referee when it is legal, then unconditionally writes the
move cell and re-writes the flip cells. -/
def get_board_after_move (b : Board) (player : Player) (m : Move) : Board :=
  let fc := find_flip_cells_for_move b player m
  let new_board := if fc.1 then apply_move b player m fc.2 else b
  let new_board := setCell new_board m (Cell.Taken player)
  fc.2.foldl (fun acc f => setCell acc f (Cell.Taken player)) new_board

/-- `negate`, `ai.rs` lines 140-145. -/
def negate (v : Option Int) : Option Int :=
  match v with
  | some x => some (-x)
  | none => none

/-- The update test `x.is_none() || val > x.unwrap()` used for both the running
maximum and the running alpha in `negamax` (`ai.rs` lines 80, 84) and for the
best root move in `calculate_best_move` (line 32). -/
def betterThan (cur : Option Int) (val : Int) : Bool :=
  match cur with
  | none => true
  | some x => decide (x < val)

/-- The cutoff test `current_alpha.is_some() && beta.is_some() &&
current_alpha >= beta` (`ai.rs` line 88). -/
def alphaBetaCut (a beta : Option Int) : Bool :=
  match a, beta with
  | some x, some y => decide (y ≤ x)
  | _, _ => false

/-- The child-move loop of `negamax` (`ai.rs` lines 69-99): `f` is the negated
recursive call (already a function of the running alpha), `mx` the running
maximum, `a` the running alpha; a cutoff abandons the remaining moves. -/
def negamaxLoop (f : Move → Option Int → Int) (beta : Option Int) :
    List Move → Option Int → Option Int → Option Int
  | [], mx, _ => mx
  | m :: rest, mx, a =>
    let val := f m a
    let mx' := if betterThan mx val then some val else mx
    let a' := if betterThan a val then some val else a
    if alphaBetaCut a' beta then mx' else negamaxLoop f beta rest mx' a'

/-- Body of `negamax` (`ai.rs` lines 41-102) for positive depth, with `rec`
standing for the recursive call at `depth - 1` (the `Nat` recursion in
`negamax` below supplies it).  `.getD 0` models the final `max.unwrap()`,
which is reachable only with `max = Some _` because the move list is
non-empty. -/
def negamaxStep (rec : Board → Player → Bool → Option Int → Option Int → Int)
    (b : Board) (player : Player) (previous_player_has_played : Bool)
    (alpha beta : Option Int) : Int :=
  match find_all_valid_moves b player with
  | [] =>
    if previous_player_has_played then calculate_heuristic b player
    else rec b player.opponent true alpha beta
  | m :: rest =>
    (negamaxLoop
      (fun mv a =>
        - rec (get_board_after_move b player mv) player.opponent false (negate beta) (negate a))
      beta (m :: rest) none alpha).getD 0

/-- `negamax`, `ai.rs` lines 41-102.  Depth 0 returns the heuristic for the
player to move; otherwise the step body above runs with the recursive call at
`depth - 1`. -/
def negamax : Nat → Board → Player → Bool → Option Int → Option Int → Int
  | 0 => fun b player _ _ _ => calculate_heuristic b player
  | d + 1 => negamaxStep (negamax d)

/-- The root-selection loop of `calculate_best_move` (`ai.rs` lines 21-36):
keeps the incumbent `(move, score)` pair, replacing it only on strict
improvement (the source keeps the index `max_index`; carrying the move itself
is the same selection). -/
def bestMoveLoop (score : Move → Int) : List Move → Option (Move × Int) → Option (Move × Int)
  | [], best => best
  | m :: rest, best =>
    let val := score m
    let best' :=
      match best with
      | none => some (m, val)
      | some (bm, bv) => if bv < val then some (m, val) else some (bm, bv)
    bestMoveLoop score rest best'

/-- `calculate_best_move`, `ai.rs` lines 17-39: scores every candidate with a
depth-8 `negamax` from the opponent's perspective over the successor board,
negates, and keeps the strictly best, first seen wins.  The source's final
`valid_moves.list[max_index.unwrap()]` panics on an empty candidate list
(a precondition per spec §4.3); the `(8, 8)` default is unreachable for
non-empty input. -/
def calculate_best_move (b : Board) (valid_moves : List Move) (player : Player) : Move :=
  ((bestMoveLoop
      (fun mv =>
        - negamax 8 (get_board_after_move b player mv) player.opponent false none none)
      valid_moves none).map (fun x => x.1)).getD (8, 8)

/-- `calculate_best_move` generalized over the search depth, for stating that
the source is exactly its depth-8 instance (the request's `recursion_depth`
never reaches it). -/
def calculate_best_move_at_depth (depth : Nat) (b : Board) (valid_moves : List Move)
    (player : Player) : Move :=
  ((bestMoveLoop
      (fun mv =>
        - negamax depth (get_board_after_move b player mv) player.opponent false none none)
      valid_moves none).map (fun x => x.1)).getD (8, 8)

/-! ## Pruning-disabled reference search (spec §4.3 / §8)

The spec's alpha-beta equivalence property compares the search against "the
move chosen by exhaustive (unpruned) search on the same position": the same
recursion with the alpha/beta bookkeeping and the cutoff removed. -/

/-- The child-move loop with pruning disabled: same maximum update, no alpha
tracking, no cutoff. -/
def fullLoop (s : Move → Int) : List Move → Option Int → Option Int
  | [], mx => mx
  | m :: rest, mx =>
    let val := s m
    let mx' := if betterThan mx val then some val else mx
    fullLoop s rest mx'

/-- Body of the exhaustive search at positive depth. -/
def negamaxFullStep (rec : Board → Player → Bool → Int)
    (b : Board) (player : Player) (previous_player_has_played : Bool) : Int :=
  match find_all_valid_moves b player with
  | [] =>
    if previous_player_has_played then calculate_heuristic b player
    else rec b player.opponent true
  | m :: rest =>
    (fullLoop
      (fun mv => - rec (get_board_after_move b player mv) player.opponent false)
      (m :: rest) none).getD 0

/-- Exhaustive (pruning-disabled) `negamax` at the same depth. -/
def negamax_full : Nat → Board → Player → Bool → Int
  | 0 => fun b player _ => calculate_heuristic b player
  | d + 1 => negamaxFullStep (negamax_full d)

/-- Root selection driven by the exhaustive search. -/
def calculate_best_move_full (b : Board) (valid_moves : List Move) (player : Player) : Move :=
  ((bestMoveLoop
      (fun mv =>
        - negamax_full 8 (get_board_after_move b player mv) player.opponent false)
      valid_moves none).map (fun x => x.1)).getD (8, 8)

/-! ## `game.rs`

The UI rendering, the channels/thread of the async agent and the
`Instant`-valued `scheduled_restart` field are outside a shallow embedding;
the game state below keeps every field the move logic reads or writes.
`Statistics::add_datum` (in the absent `statistics.rs`) is modelled as a
counter of recorded outcomes. -/

/-- `AiType` from the absent part of `ai.rs` — Modelled from the spec:
a closed tagged variant Random / Minimax. -/
inductive AiType where
  | Random
  | Minimax
deriving DecidableEq, Repr

/-- `Phase` enum, `game.rs` lines 23-28. -/
inductive Phase where
  | Turn (p : Player)
  | Win (p : Player)
  | Tie
deriving DecidableEq, Repr

/-- `PlayerOptions`, `game.rs` lines 52-57. -/
structure PlayerOptions where
  ai_enabled : Bool
  ai_type : AiType
  ai_recursion_depth : Nat
deriving DecidableEq, Repr

/-- `MoveResult` from the absent part of `ai.rs` — Modelled from the spec §6:
the board snapshot the search used, the player it moved for, and the chosen
move (an out-of-range coordinate signals "no legal move could be produced"). -/
structure MoveResult where
  board : Board
  player : Player
  next_move : Move

/-- The fields of `Game` (`game.rs` lines 69-85) that the move logic touches.
`ai_thread`, the two channels and `scheduled_restart` (threading and wall
clock) are outside the embedding; `statistics` is reduced to a counter. -/
structure Game where
  board : Board
  current_phase : Phase
  player_options : Player → PlayerOptions
  awaiting_ai_move : Bool
  valid_moves : List Move
  flip_cells : List Move
  is_board_untouched : Bool
  can_take_statistics : Bool
  statistics_count : Nat

/-- `take_statistics`, `game.rs` lines 243-278 (the datum formatting lives in
the absent `statistics.rs`; recording is modelled as a counter increment). -/
def take_statistics (g : Game) : Game :=
  if g.can_take_statistics then
    { g with statistics_count := g.statistics_count + 1, can_take_statistics := false }
  else g

/-- `make_move`, `game.rs` lines 187-241: validates via the referee, applies
the move, hands the turn to the opponent when they can move, keeps the turn
when only the mover can move again, and otherwise ends the game via
`check_outcome`.  Returns the updated state and the `bool` the source
returns. -/
def make_move (g : Game) (next_move : Move) (player : Player) : Game × Bool :=
  let fc := find_flip_cells_for_move g.board player next_move
  let g0 := { g with flip_cells := fc.2 }
  if fc.1 then
    let board1 := apply_move g0.board player next_move fc.2
    let vm_opp := find_all_valid_moves board1 player.opponent
    let g1 := { g0 with board := board1, valid_moves := vm_opp }
    let g2 :=
      if !vm_opp.isEmpty then
        { g1 with current_phase := Phase.Turn player.opponent }
      else
        let vm_self := find_all_valid_moves board1 player
        let g1b := { g1 with valid_moves := vm_self }
        if !vm_self.isEmpty then g1b
        else
          let g1c :=
            { g1b with
              current_phase :=
                match check_outcome board1 with
                | Outcome.Won w => Phase.Win w
                | Outcome.Tie => Phase.Tie }
          take_statistics g1c
    let g3 :=
      if g2.is_board_untouched then
        { g2 with can_take_statistics := true, is_board_untouched := false }
      else g2
    (g3, true)
  else
    (g0, false)

/-- The receive path of `tick_ai` (`game.rs` lines 157-169): the state update
performed when `awaiting_ai_move` holds and `try_recv` yields `move_result`.
(The send path and the non-blocking poll itself are channel plumbing outside
the embedding.)  In range and fresh: apply the move (the source asserts the
returned bool).  In range but stale: discard.  Out of range: disable the AI
for that player.  In every case the awaiting flag clears. -/
def tick_ai_on_result (g : Game) (player : Player) (move_result : MoveResult) : Game :=
  let row := move_result.next_move.1
  let col := move_result.next_move.2
  if row < Board.SIZE ∧ col < Board.SIZE then
    if move_result.board.grid = g.board.grid ∧ move_result.player = player then
      let g1 := (make_move g move_result.next_move player).1
      { g1 with awaiting_ai_move := false }
    else
      { g with awaiting_ai_move := false }
  else
    let g1 :=
      { g with
        player_options := fun q =>
          if q = player then
            { g.player_options player with ai_enabled := false }
          else g.player_options q }
    { g1 with awaiting_ai_move := false }

/-! ## Concrete boards for witnesses -/

/-- The empty board (no pieces; neither player has a legal move). -/
def emptyBoard : Board := ⟨fun _ _ => Cell.Empty⟩

/-- The standard Othello opening position (spec §3: four centre cells in the
canonical diagonal pattern). -/
def initialBoard : Board :=
  ⟨fun i j =>
    if ((i : Nat) = 3 ∧ (j : Nat) = 3) ∨ ((i : Nat) = 4 ∧ (j : Nat) = 4) then
      Cell.Taken Player.White
    else if ((i : Nat) = 3 ∧ (j : Nat) = 4) ∨ ((i : Nat) = 4 ∧ (j : Nat) = 3) then
      Cell.Taken Player.Black
    else Cell.Empty⟩

/-- A board whose top-left cell is already Black's (for the illegal-move
frame analysis of `get_board_after_move`). -/
def cornerBoard : Board :=
  ⟨fun i j =>
    if (i : Nat) = 0 ∧ (j : Nat) = 0 then Cell.Taken Player.Black else Cell.Empty⟩

/-- A reference game state for the `tick_ai` witnesses. -/
def game0 : Game :=
  { board := initialBoard
    current_phase := Phase.Turn Player.Black
    player_options := fun _ =>
      { ai_enabled := true, ai_type := AiType.Minimax, ai_recursion_depth := 1 }
    awaiting_ai_move := true
    valid_moves := find_all_valid_moves initialBoard Player.Black
    flip_cells := []
    is_board_untouched := true
    can_take_statistics := true
    statistics_count := 0 }

/-! ## Analysis vocabulary -/

/-- Maximum of two optional values (`none` = absent): the value the running
alpha and running maximum of the pruned loop take after an update. -/
def maxO : Option Int → Option Int → Option Int
  | x, none => x
  | none, some y => some y
  | some x, some y => some (max x y)

/-- A well-formed pruning window: when both bounds are present, alpha is
strictly below beta.  This is the shape of every window the search builds
from an unbounded root. -/
def wfW (alpha beta : Option Int) : Prop :=
  ∀ a0 b0, alpha = some a0 → beta = some b0 → a0 < b0

/-- The fail-soft alpha-beta contract: `v` (the pruned result) determines the
exhaustive value `t` exactly when it falls strictly inside the window, and is
a sound bound on `t` when it falls on or outside a bound. -/
def approx (alpha beta : Option Int) (v t : Int) : Prop :=
  (∀ a0, alpha = some a0 → v ≤ a0 → t ≤ v) ∧
  (∀ b0, beta = some b0 → b0 ≤ v → v ≤ t) ∧
  (((∀ a0, alpha = some a0 → a0 < v) ∧ (∀ b0, beta = some b0 → v < b0)) → v = t)

/-- The four corner squares. -/
def isCorner (i j : Fin 8) : Prop :=
  ((i : Nat) = 0 ∨ (i : Nat) = 7) ∧ ((j : Nat) = 0 ∨ (j : Nat) = 7)

/-- The edge squares (outermost ring, corners included). -/
def isEdge (i j : Fin 8) : Prop :=
  (i : Nat) = 0 ∨ (i : Nat) = 7 ∨ (j : Nat) = 0 ∨ (j : Nat) = 7

/-- The squares adjacent (including diagonally) to a corner, corners
themselves excluded. -/
def adjacentToCorner (i j : Fin 8) : Prop :=
  ¬ isCorner i j ∧ ∃ ci cj : Fin 8, isCorner ci cj ∧
    ((i : Int) - (ci : Int)).natAbs ≤ 1 ∧ ((j : Int) - (cj : Int)).natAbs ≤ 1

/-- The score `calculate_best_move` assigns to a root candidate (`ai.rs`
lines 22-30): the negated depth-8 unbounded negamax of the successor board
from the opponent's perspective. -/
def rootScore (b : Board) (player : Player) (mv : Move) : Int :=
  - negamax 8 (get_board_after_move b player mv) player.opponent false none none

instance (i j : Fin 8) : Decidable (isCorner i j) := by unfold isCorner; infer_instance
instance (i j : Fin 8) : Decidable (isEdge i j) := by unfold isEdge; infer_instance
instance (i j : Fin 8) : Decidable (adjacentToCorner i j) := by
  unfold adjacentToCorner isCorner; infer_instance

/-! ## Helper lemmas: the pruned and exhaustive move loops -/

theorem betterThan_update (o : Option Int) (v : Int) :
    (if betterThan o v then some v else o) = maxO o (some v) := by
  cases o with
  | none => simp [betterThan, maxO]
  | some x =>
    by_cases h : x < v
    · simp [betterThan, maxO, h, max_eq_right h.le]
    · simp [betterThan, maxO, h, max_eq_left (le_of_not_lt h)]

theorem maxO_none_right (x : Option Int) : maxO x none = x := by
  cases x <;> rfl

theorem maxO_assoc (x y : Option Int) (v : Int) :
    maxO (maxO x y) (some v) = maxO x (maxO y (some v)) := by
  cases x <;> cases y <;> simp [maxO, max_assoc]

theorem maxO_some_right (y : Option Int) (v : Int) : (maxO y (some v)).isSome := by
  cases y <;> simp [maxO]

theorem approx_refl (alpha beta : Option Int) (v : Int) : approx alpha beta v v :=
  ⟨fun _ _ _ => le_refl v, fun _ _ _ => le_refl v, fun _ => rfl⟩

theorem wfW_none_left (beta : Option Int) : wfW none beta := by
  intro a0 b0 h
  exact absurd h (by simp)

theorem wfW_neg {alpha beta : Option Int} (h : wfW alpha beta) :
    wfW (negate beta) (negate alpha) := by
  intro x y hx hy
  cases alpha with
  | none => simp [negate] at hy
  | some a0 =>
    cases beta with
    | none => simp [negate] at hx
    | some b0 =>
      simp [negate] at hx hy
      have := h a0 b0 rfl rfl
      omega

theorem approx_neg {alpha beta : Option Int} {v t : Int}
    (h : approx (negate beta) (negate alpha) v t) : approx alpha beta (-v) (-t) := by
  obtain ⟨h1, h2, h3⟩ := h
  refine ⟨?_, ?_, ?_⟩
  · intro a0 ha hv
    have := h2 (-a0) (by simp [negate, ha]) (by omega)
    omega
  · intro b0 hb hv
    have := h1 (-b0) (by simp [negate, hb]) (by omega)
    omega
  · rintro ⟨hlo, hhi⟩
    have : v = t := by
      refine h3 ⟨?_, ?_⟩
      · intro x hx
        cases beta with
        | none => simp [negate] at hx
        | some b0 =>
          simp [negate] at hx
          have := hhi b0 rfl
          omega
      · intro y hy
        cases alpha with
        | none => simp [negate] at hy
        | some a0 =>
          simp [negate] at hy
          have := hlo a0 rfl
          omega
    omega

theorem fullLoop_none_iff (s : Move → Int) :
    ∀ (l : List Move) (acc : Option Int),
      fullLoop s l acc = none ↔ (acc = none ∧ l = []) := by
  intro l
  induction l with
  | nil => intro acc; simp [fullLoop]
  | cons m rest ih =>
    intro acc
    rw [fullLoop, betterThan_update]
    rw [ih]
    constructor
    · rintro ⟨h1, -⟩
      exact absurd h1 (by have := maxO_some_right acc (s m); cases hh : maxO acc (some (s m)) <;> simp_all)
    · rintro ⟨-, h2⟩
      exact absurd h2 (by simp)

theorem hist_step {alpha beta : Option Int}
    {mx eT : Option Int}
    (hnone : mx = none ↔ eT = none)
    (hhist : ∀ g1 e1, mx = some g1 → eT = some e1 → approx alpha beta g1 e1)
    {val sm : Int}
    (D : approx (maxO alpha mx) beta val sm) :
    ∀ g1' e1', maxO mx (some val) = some g1' → maxO eT (some sm) = some e1' →
      approx alpha beta g1' e1' := by
  intro g1' e1' hg he
  cases mx with
  | none =>
    have heT : eT = none := hnone.mp rfl
    subst heT
    simp [maxO] at hg he
    subst hg
    subst he
    cases alpha with
    | none => exact D
    | some a0 => exact D
  | some g1 =>
    obtain ⟨e1, he1⟩ : ∃ e1, eT = some e1 := by
      cases h : eT with
      | none => exact absurd (hnone.mpr h) (by simp)
      | some e1 => exact ⟨e1, rfl⟩
    subst he1
    obtain ⟨H1, H2, H3⟩ := hhist g1 e1 rfl rfl
    simp only [maxO, Option.some.injEq] at hg he
    subst hg
    subst he
    obtain ⟨D1, D2, D3⟩ := D
    rcases max_cases g1 val with ⟨hM, hMc⟩ | ⟨hM, hMc⟩ <;> rw [hM]
    · -- val ≤ g1 : the incumbent maximum stands
      have hA : ∀ a0', maxO alpha (some g1) = some a0' → val ≤ a0' := by
        intro a0' ha
        cases alpha with
        | none => simp [maxO] at ha; omega
        | some a0 =>
          simp [maxO] at ha
          have := le_max_right a0 g1
          omega
      have hsm : sm ≤ val := by
        cases hmo : maxO alpha (some g1) with
        | none => cases alpha <;> simp [maxO] at hmo
        | some A => exact D1 A hmo (hA A hmo)
      refine ⟨?_, ?_, ?_⟩
      · intro a0 ha hle
        have he1g : e1 ≤ g1 := H1 a0 ha hle
        rcases max_cases e1 sm with ⟨hN, hNc⟩ | ⟨hN, hNc⟩ <;> rw [hN] <;> omega
      · intro b0 hb hle
        have := H2 b0 hb hle
        have := le_max_left e1 sm
        omega
      · rintro ⟨hlo, hhi⟩
        have hge : g1 = e1 := by
          refine H3 ⟨?_, ?_⟩
          · intro a0 ha; exact hlo a0 ha
          · intro b0 hb; exact hhi b0 hb
        rcases max_cases e1 sm with ⟨hN, hNc⟩ | ⟨hN, hNc⟩ <;> rw [hN] <;> omega
    · -- g1 < val : the new child value takes over
      refine ⟨?_, ?_, ?_⟩
      · intro a0 ha hle
        have he1g : e1 ≤ g1 := H1 a0 ha (by omega)
        have hsm : sm ≤ val := by
          refine D1 (max a0 g1) ?_ ?_
          · cases alpha with
            | none => exact absurd ha (by simp)
            | some a0' =>
              injection ha with ha'
              subst ha'
              rfl
          · have := le_max_left a0 g1
            omega
        rcases max_cases e1 sm with ⟨hN, hNc⟩ | ⟨hN, hNc⟩ <;> rw [hN] <;> omega
      · intro b0 hb hle
        have := D2 b0 hb (by omega)
        have := le_max_right e1 sm
        omega
      · rintro ⟨hlo, hhi⟩
        have hvs : val = sm := by
          refine D3 ⟨?_, ?_⟩
          · intro a0' ha
            cases alpha with
            | none => simp [maxO] at ha; omega
            | some a0 =>
              simp [maxO] at ha
              have := hlo a0 rfl
              rcases max_cases a0 g1 with ⟨hK, hKc⟩ | ⟨hK, hKc⟩ <;> omega
          · intro b0 hb
            exact hhi b0 hb
        have he1v : e1 ≤ val := by
          cases alpha with
          | none =>
            have : g1 = e1 := H3 ⟨by intro a0 ha; exact absurd ha (by simp),
              by intro b0 hb; have := hhi b0 hb; omega⟩
            omega
          | some a0 =>
            by_cases hag : a0 < g1
            · have : g1 = e1 := H3 ⟨by intro a0' ha'; injection ha' with h; omega,
                by intro b0 hb; have := hhi b0 hb; omega⟩
              omega
            · have := H1 a0 rfl (by omega)
              omega
        rcases max_cases e1 sm with ⟨hN, hNc⟩ | ⟨hN, hNc⟩ <;> rw [hN] <;> omega

theorem fullLoop_le (s : Move → Int) :
    ∀ (l : List Move) (x t0 : Int), fullLoop s l (some x) = some t0 → x ≤ t0 := by
  intro l
  induction l with
  | nil =>
    intro x t0 h
    simp [fullLoop] at h
    omega
  | cons m rest ih =>
    intro x t0 h
    rw [fullLoop, betterThan_update] at h
    have hx : maxO (some x) (some (s m)) = some (max x (s m)) := rfl
    rw [hx] at h
    have := ih (max x (s m)) t0 h
    have := le_max_left x (s m)
    omega

/-- The central alpha-beta soundness invariant: processing the remaining
moves `l` from a state where the running maximum `mx` summarizes the already
explored moves (whose exhaustive counterpart is summarized by `eT`), the
pruned loop result satisfies the fail-soft contract against the exhaustive
loop result. -/
theorem negamaxLoop_approx (alpha beta : Option Int) (hwf : wfW alpha beta)
    (fneg : Move → Option Int → Int) (s : Move → Int) :
    ∀ (l : List Move) (mx eT : Option Int),
      (∀ mv, mv ∈ l → ∀ aOpt, wfW aOpt beta → approx aOpt beta (fneg mv aOpt) (s mv)) →
      (mx = none ↔ eT = none) →
      (∀ g1 e1, mx = some g1 → eT = some e1 → approx alpha beta g1 e1) →
      wfW (maxO alpha mx) beta →
      ((negamaxLoop fneg beta l mx (maxO alpha mx) = none ↔ fullLoop s l eT = none) ∧
       (∀ g0 t0, negamaxLoop fneg beta l mx (maxO alpha mx) = some g0 →
         fullLoop s l eT = some t0 → approx alpha beta g0 t0)) := by
  intro l
  induction l with
  | nil =>
    intro mx eT _ hnone hhist _
    refine ⟨by simpa [negamaxLoop, fullLoop] using hnone, ?_⟩
    intro g0 t0 hg ht
    exact hhist g0 t0 (by simpa [negamaxLoop] using hg) (by simpa [fullLoop] using ht)
  | cons m rest ih =>
    intro mx eT Hd hnone hhist hcutwf
    have D : approx (maxO alpha mx) beta (fneg m (maxO alpha mx)) (s m) :=
      Hd m (List.mem_cons_self m rest) (maxO alpha mx) hcutwf
    have hstep := hist_step hnone hhist D
    have hloop :
        negamaxLoop fneg beta (m :: rest) mx (maxO alpha mx) =
          if alphaBetaCut (maxO alpha (maxO mx (some (fneg m (maxO alpha mx))))) beta then
            maxO mx (some (fneg m (maxO alpha mx)))
          else
            negamaxLoop fneg beta rest (maxO mx (some (fneg m (maxO alpha mx))))
              (maxO alpha (maxO mx (some (fneg m (maxO alpha mx))))) := by
      simp only [negamaxLoop]
      rw [betterThan_update, betterThan_update, maxO_assoc]
    have hfull : fullLoop s (m :: rest) eT = fullLoop s rest (maxO eT (some (s m))) := by
      simp only [fullLoop]
      rw [betterThan_update]
    obtain ⟨G, hG⟩ : ∃ G, maxO mx (some (fneg m (maxO alpha mx))) = some G :=
      Option.isSome_iff_exists.mp (maxO_some_right mx _)
    obtain ⟨E, hE⟩ : ∃ E, maxO eT (some (s m)) = some E :=
      Option.isSome_iff_exists.mp (maxO_some_right eT _)
    have happ : approx alpha beta G E := hstep G E hG hE
    rw [hloop, hfull, hG, hE]
    by_cases hcut : alphaBetaCut (maxO alpha (some G)) beta = true
    · rw [if_pos hcut]
      obtain ⟨A, hA⟩ : ∃ A, maxO alpha (some G) = some A :=
        Option.isSome_iff_exists.mp (maxO_some_right alpha G)
      obtain ⟨b0, hb0, hbA⟩ : ∃ b0, beta = some b0 ∧ b0 ≤ A := by
        rw [hA] at hcut
        cases hb : beta with
        | none => rw [hb] at hcut; simp [alphaBetaCut] at hcut
        | some b0 =>
          rw [hb] at hcut
          simp [alphaBetaCut] at hcut
          exact ⟨b0, rfl, hcut⟩
      constructor
      · rw [fullLoop_none_iff]
        simp
      · intro g0 t0 hg0 ht0
        have hGg : G = g0 := by injection hg0
        subst hGg
        have hEt := fullLoop_le s rest E t0 ht0
        refine ⟨?_, ?_, ?_⟩
        · intro a0 ha hle
          exfalso
          rw [ha] at hA
          simp [maxO] at hA
          have := hwf a0 b0 ha hb0
          rcases max_cases a0 G with ⟨hK, hKc⟩ | ⟨hK, hKc⟩ <;> omega
        · intro b0' hb' hle
          rw [hb0] at hb'
          have hbb : b0 = b0' := by injection hb'
          subst hbb
          have := happ.2.1 b0 hb0 hle
          omega
        · rintro ⟨hlo, hhi⟩
          exfalso
          have hGb : G < b0 := hhi b0 hb0
          cases halpha : alpha with
          | none => rw [halpha] at hA; simp [maxO] at hA; omega
          | some a0 =>
            have := hlo a0 halpha
            rw [halpha] at hA
            simp [maxO] at hA
            rcases max_cases a0 G with ⟨hK, hKc⟩ | ⟨hK, hKc⟩ <;> omega
    · rw [if_neg hcut]
      have hcutwf' : wfW (maxO alpha (some G)) beta := by
        intro a0 b0 ha hb
        rw [ha, hb] at hcut
        simp [alphaBetaCut] at hcut
        omega
      have hhist' : ∀ g1 e1, some G = some g1 → some E = some e1 →
          approx alpha beta g1 e1 := by
        intro g1 e1 h1 h2
        injection h1 with h1
        injection h2 with h2
        subst h1
        subst h2
        exact happ
      exact ih (some G) (some E)
        (fun mv hmv => Hd mv (List.mem_cons_of_mem m hmv))
        (by simp) hhist' hcutwf'

/-- Fail-soft soundness of the pruned search against the exhaustive search,
for every well-formed window. -/
theorem negamax_approx :
    ∀ (d : Nat) (b : Board) (p : Player) (prev : Bool) (alpha beta : Option Int),
      wfW alpha beta →
      approx alpha beta (negamax d b p prev alpha beta) (negamax_full d b p prev) := by
  intro d
  induction d with
  | zero =>
    intro b p prev alpha beta _
    exact approx_refl _ _ _
  | succ d ih =>
    intro b p prev alpha beta hwf
    show approx alpha beta (negamaxStep (negamax d) b p prev alpha beta)
      (negamaxFullStep (negamax_full d) b p prev)
    rw [negamaxStep, negamaxFullStep]
    cases hms : find_all_valid_moves b p with
    | nil =>
      simp only
      by_cases hprev : prev
      · simp only [hprev, if_true]
        exact approx_refl _ _ _
      · simp only [hprev, if_false]
        exact ih b p.opponent true alpha beta hwf
    | cons m rest =>
      simp only
      have main := negamaxLoop_approx alpha beta hwf
        (fun mv a =>
          - negamax d (get_board_after_move b p mv) p.opponent false (negate beta) (negate a))
        (fun mv => - negamax_full d (get_board_after_move b p mv) p.opponent false)
        (m :: rest) none none
        (fun mv _ aOpt hwfa =>
          approx_neg (ih (get_board_after_move b p mv) p.opponent false
            (negate beta) (negate aOpt) (wfW_neg hwfa)))
        Iff.rfl (fun g1 e1 h1 _ => nomatch h1)
        (by rw [maxO_none_right]; exact hwf)
      rw [maxO_none_right] at main
      obtain ⟨t0, ht0⟩ : ∃ t0,
          fullLoop (fun mv => - negamax_full d (get_board_after_move b p mv) p.opponent false)
            (m :: rest) none = some t0 := by
        cases hfl : fullLoop (fun mv =>
            - negamax_full d (get_board_after_move b p mv) p.opponent false) (m :: rest) none with
        | none => rw [fullLoop_none_iff] at hfl; simp at hfl
        | some t0 => exact ⟨t0, rfl⟩
      obtain ⟨g0, hg0⟩ : ∃ g0,
          negamaxLoop (fun mv a =>
              - negamax d (get_board_after_move b p mv) p.opponent false
                (negate beta) (negate a))
            beta (m :: rest) none alpha = some g0 := by
        cases hnl : negamaxLoop (fun mv a =>
            - negamax d (get_board_after_move b p mv) p.opponent false
              (negate beta) (negate a)) beta (m :: rest) none alpha with
        | none => rw [main.1, fullLoop_none_iff] at hnl; simp at hnl
        | some g0 => exact ⟨g0, rfl⟩
      rw [hg0, ht0]
      simp only [Option.getD_some]
      exact main.2 g0 t0 hg0 ht0

/-- With no bounds at the root, the pruned and exhaustive searches agree
exactly. -/
theorem negamax_exact (d : Nat) (b : Board) (p : Player) (prev : Bool) :
    negamax d b p prev none none = negamax_full d b p prev := by
  have h := negamax_approx d b p prev none none (wfW_none_left none)
  exact h.2.2 ⟨fun a0 ha => (nomatch ha), fun b0 hb => (nomatch hb)⟩

/-! ## Helper lemmas: root-move selection -/

theorem bestMoveLoop_congr {f g : Move → Int} (h : ∀ m, f m = g m) :
    ∀ (l : List Move) (acc : Option (Move × Int)),
      bestMoveLoop f l acc = bestMoveLoop g l acc := by
  intro l
  induction l with
  | nil => intro acc; rfl
  | cons m rest ih =>
    intro acc
    simp only [bestMoveLoop, h m]
    exact ih _

/-- Characterization of the incumbent loop: starting from an incumbent whose
stored score is its own, the result is the first-seen strict maximum over the
incumbent and the scanned moves. -/
theorem bestMoveLoop_spec (f : Move → Int) :
    ∀ (l : List Move) (bm : Move) (bv : Int), bv = f bm →
      ∃ rm rv, bestMoveLoop f l (some (bm, bv)) = some (rm, rv) ∧ rv = f rm ∧
        ((rm = bm ∧ rv = bv ∧ ∀ m ∈ l, f m ≤ bv) ∨
         (∃ k, ∃ hk : k < l.length, rm = l.get ⟨k, hk⟩ ∧ bv < rv ∧
           (∀ j, ∀ hj : j < l.length, j < k → f (l.get ⟨j, hj⟩) < rv) ∧
           (∀ j, ∀ hj : j < l.length, f (l.get ⟨j, hj⟩) ≤ rv))) := by
  intro l
  induction l with
  | nil =>
    intro bm bv hbv
    exact ⟨bm, bv, rfl, hbv, Or.inl ⟨rfl, rfl, by simp⟩⟩
  | cons m rest ih =>
    intro bm bv hbv
    have hlen : (m :: rest).length = rest.length + 1 := rfl
    by_cases hlt : bv < f m
    · obtain ⟨rm, rv, heq, hrv, hcase⟩ := ih m (f m) rfl
      have heq' : bestMoveLoop f (m :: rest) (some (bm, bv)) = some (rm, rv) := by
        rw [bestMoveLoop]
        simp only [if_pos hlt]
        exact heq
      refine ⟨rm, rv, heq', hrv, Or.inr ?_⟩
      rcases hcase with ⟨hrm, hrveq, hall⟩ | ⟨k', hk', hrm, hlt', hstrict, hall⟩
      · refine ⟨0, rest.length.succ_pos, hrm, by omega, ?_, ?_⟩
        · intro j hj hj0
          exact absurd hj0 (Nat.not_lt_zero j)
        · intro j hj
          rw [hlen] at hj
          cases j with
          | zero =>
            show f m ≤ rv
            omega
          | succ j' =>
            have hj' : j' < rest.length := by omega
            show f (rest.get ⟨j', hj'⟩) ≤ rv
            rw [hrveq]
            exact hall _ (List.get_mem rest j' hj')
      · refine ⟨k' + 1, by rw [hlen]; omega, hrm, by omega, ?_, ?_⟩
        · intro j hj hjk
          rw [hlen] at hj
          cases j with
          | zero =>
            show f m < rv
            omega
          | succ j' =>
            have hj' : j' < rest.length := by omega
            show f (rest.get ⟨j', hj'⟩) < rv
            exact hstrict j' hj' (by omega)
        · intro j hj
          rw [hlen] at hj
          cases j with
          | zero =>
            show f m ≤ rv
            omega
          | succ j' =>
            have hj' : j' < rest.length := by omega
            show f (rest.get ⟨j', hj'⟩) ≤ rv
            exact hall j' hj'
    · obtain ⟨rm, rv, heq, hrv, hcase⟩ := ih bm bv hbv
      have heq' : bestMoveLoop f (m :: rest) (some (bm, bv)) = some (rm, rv) := by
        rw [bestMoveLoop]
        simp only [if_neg hlt]
        exact heq
      refine ⟨rm, rv, heq', hrv, ?_⟩
      rcases hcase with ⟨hrm, hrveq, hall⟩ | ⟨k', hk', hrm, hlt', hstrict, hall⟩
      · refine Or.inl ⟨hrm, hrveq, ?_⟩
        intro x hx
        rcases List.mem_cons.mp hx with hx | hx
        · subst hx
          omega
        · exact hall x hx
      · refine Or.inr ⟨k' + 1, by rw [hlen]; omega, hrm, hlt', ?_, ?_⟩
        · intro j hj hjk
          rw [hlen] at hj
          cases j with
          | zero =>
            show f m < rv
            omega
          | succ j' =>
            have hj' : j' < rest.length := by omega
            show f (rest.get ⟨j', hj'⟩) < rv
            exact hstrict j' hj' (by omega)
        · intro j hj
          rw [hlen] at hj
          cases j with
          | zero =>
            show f m ≤ rv
            omega
          | succ j' =>
            have hj' : j' < rest.length := by omega
            show f (rest.get ⟨j', hj'⟩) ≤ rv
            exact hall j' hj'

/-! ## Helper lemmas: board updates -/

theorem setCell_grid (b : Board) (m : Move) (v : Cell) (i j : Fin 8) :
    (setCell b m v).grid i j =
      if (i : Nat) = m.1 ∧ (j : Nat) = m.2 then v else b.grid i j := by
  unfold setCell
  split
  · rfl
  · rename_i h
    have hne : ¬ ((i : Nat) = m.1 ∧ (j : Nat) = m.2) := by
      rintro ⟨h1, h2⟩
      exact h ⟨h1 ▸ i.isLt, h2 ▸ j.isLt⟩
    rw [if_neg hne]

theorem foldl_setCell_grid (p : Player) :
    ∀ (l : List Move) (b : Board) (i j : Fin 8),
      (l.foldl (fun acc f => setCell acc f (Cell.Taken p)) b).grid i j =
        if ((i : Nat), (j : Nat)) ∈ l then Cell.Taken p else b.grid i j := by
  intro l
  induction l with
  | nil =>
    intro b i j
    simp
  | cons f rest ih =>
    intro b i j
    rw [List.foldl_cons, ih]
    by_cases hmem : ((i : Nat), (j : Nat)) ∈ rest
    · rw [if_pos hmem, if_pos (List.mem_cons_of_mem f hmem)]
    · rw [if_neg hmem, setCell_grid]
      by_cases hf : (i : Nat) = f.1 ∧ (j : Nat) = f.2
      · rw [if_pos hf, if_pos]
        exact List.mem_cons.mpr (Or.inl (Prod.ext_iff.mpr ⟨hf.1, hf.2⟩))
      · rw [if_neg hf, if_neg]
        intro hmem'
        rcases List.mem_cons.mp hmem' with h | h
        · exact hf (Prod.ext_iff.mp h)
        · exact hmem h

theorem apply_move_grid (b : Board) (p : Player) (m : Move) (flips : List Move) (i j : Fin 8) :
    (apply_move b p m flips).grid i j =
      if ((i : Nat) = m.1 ∧ (j : Nat) = m.2) ∨ ((i : Nat), (j : Nat)) ∈ flips then Cell.Taken p
      else b.grid i j := by
  unfold apply_move
  rw [foldl_setCell_grid, setCell_grid]
  by_cases h1 : ((i : Nat), (j : Nat)) ∈ flips
  · simp [h1]
  · by_cases h2 : (i : Nat) = m.1 ∧ (j : Nat) = m.2 <;> simp [h1, h2]

theorem get_board_after_move_grid (b : Board) (player : Player) (m : Move) (i j : Fin 8) :
    (get_board_after_move b player m).grid i j =
      if ((i : Nat) = m.1 ∧ (j : Nat) = m.2) ∨
          ((i : Nat), (j : Nat)) ∈ (find_flip_cells_for_move b player m).2 then
        Cell.Taken player
      else b.grid i j := by
  unfold get_board_after_move
  rw [foldl_setCell_grid, setCell_grid]
  by_cases h1 : ((i : Nat), (j : Nat)) ∈ (find_flip_cells_for_move b player m).2
  · simp [h1]
  · by_cases h2 : (i : Nat) = m.1 ∧ (j : Nat) = m.2
    · simp [h1, h2]
    · have hor : ¬ (((i : Nat) = m.1 ∧ (j : Nat) = m.2) ∨
          ((i : Nat), (j : Nat)) ∈ (find_flip_cells_for_move b player m).2) :=
        fun hC => hC.elim h2 h1
      rw [if_neg h1, if_neg h2, if_neg hor]
      by_cases hl : (find_flip_cells_for_move b player m).1
      · rw [if_pos hl, apply_move_grid, if_neg hor]
      · rw [if_neg hl]

/-! ## Helper lemmas: the heuristic as a sum -/

theorem foldl_add_map {α : Type} (g : α → Int) :
    ∀ (l : List α) (init : Int),
      l.foldl (fun s x => s + g x) init = init + (l.map g).sum := by
  intro l
  induction l with
  | nil =>
    intro init
    simp
  | cons x rest ih =>
    intro init
    rw [List.foldl_cons, ih, List.map_cons, List.sum_cons]
    ring

theorem calculate_weighted_piece_positions_sum (b : Board) (player : Player) :
    calculate_weighted_piece_positions b player =
      ∑ ij : Fin 8 × Fin 8,
        (if b.grid ij.1 ij.2 = Cell.Taken player then OTHELLO_WEIGHTS ij.1 ij.2 else 0) := by
  have hcell : ∀ (s : Int) (i j : Fin 8),
      (match b.grid i j with
        | Cell.Taken p => if p = player then s + OTHELLO_WEIGHTS i j else s
        | Cell.Empty => s) =
      s + (if b.grid i j = Cell.Taken player then OTHELLO_WEIGHTS i j else 0) := by
    intro s i j
    cases hc : b.grid i j with
    | Empty => simp
    | Taken q =>
      by_cases hq : q = player
      · subst hq
        simp
      · simp [hq, Cell.Taken.injEq]
  have hrow : ∀ (i : Fin 8) (s : Int),
      (List.finRange 8).foldl
        (fun sum j =>
          match b.grid i j with
          | Cell.Taken p => if p = player then sum + OTHELLO_WEIGHTS i j else sum
          | Cell.Empty => sum) s
      = s + ((List.finRange 8).map
          (fun j => if b.grid i j = Cell.Taken player then OTHELLO_WEIGHTS i j else 0)).sum := by
    intro i s
    rw [show (fun (sum : Int) j =>
          match b.grid i j with
          | Cell.Taken p => if p = player then sum + OTHELLO_WEIGHTS i j else sum
          | Cell.Empty => sum)
        = (fun (sum : Int) j =>
            sum + (if b.grid i j = Cell.Taken player then OTHELLO_WEIGHTS i j else 0))
      from funext fun s' => funext fun j => hcell s' i j]
    exact foldl_add_map _ _ s
  unfold calculate_weighted_piece_positions
  rw [show (fun (sum : Int) i =>
        (List.finRange 8).foldl
          (fun sum j =>
            match b.grid i j with
            | Cell.Taken p => if p = player then sum + OTHELLO_WEIGHTS i j else sum
            | Cell.Empty => sum) sum)
      = (fun (sum : Int) i =>
          sum + ((List.finRange 8).map
            (fun j => if b.grid i j = Cell.Taken player then OTHELLO_WEIGHTS i j else 0)).sum)
    from funext fun s' => funext fun i => hrow i s']
  rw [foldl_add_map, zero_add, Fintype.sum_prod_type]
  simp [Fin.sum_univ_def]

/-! ## Claim theorems -/

/-- Claim C1, counterexample: on the standard opening position, at depth 0
with consistent (absent) bounds, `negamax` for Black and for White are both
12, so the claimed symmetry `negamax(b, p, d, ...) = -negamax(b, opponent(p),
d, ...)` is false at this input. -/
theorem negamax_symmetry_counterexample :
    ¬ (negamax 0 initialBoard Player.Black false none none =
        - negamax 0 initialBoard Player.White false none none) := by
  decide

/-- Claim C1, amended: `negamax` evaluates every depth-0 leaf for the
player-to-move, `negamax(b, p, 0, ...) = calculate_heuristic(b, p)`; the
negation symmetry itself fails because `calculate_heuristic` sums only the
mover's own piece weights and is not antisymmetric between the players. -/
theorem negamax_leaf_player_to_move (b : Board) (p : Player) (prev : Bool)
    (alpha beta : Option Int) :
    negamax 0 b p prev alpha beta = calculate_heuristic b p := rfl

/-- Claim C3: when the player-to-move has no legal moves and the previous ply
made a move (pass flag false), `negamax` recurses on the unchanged board for
the opponent at depth - 1 with the pass flag set true, instead of treating
the position as terminal. -/
theorem negamax_pass_recursion (b : Board) (p : Player) (d : Nat)
    (alpha beta : Option Int) (h : find_all_valid_moves b p = []) :
    negamax (d + 1) b p false alpha beta = negamax d b p.opponent true alpha beta := by
  show negamaxStep (negamax d) b p false alpha beta = _
  unfold negamaxStep
  rw [h]
  rfl

/-- Claim C3, witness: on the empty board Black has no legal moves and the
pass recursion fires. -/
theorem negamax_pass_recursion_witness :
    find_all_valid_moves emptyBoard Player.Black = [] ∧
      negamax 3 emptyBoard Player.Black false none none =
        negamax 2 emptyBoard Player.White true none none :=
  ⟨by decide, negamax_pass_recursion emptyBoard Player.Black 2 none none (by decide)⟩

/-- Claim C4: `negamax` returns the leaf evaluation
`calculate_heuristic(board, player-to-move)` exactly at depth 0 and in the
double-pass case (no legal moves with the pass flag already set); in both
cases the evaluation is for the player-to-move, which is universally
quantified here. -/
theorem negamax_terminal_eval (b : Board) (p : Player) (d : Nat) (prev : Bool)
    (alpha beta : Option Int) :
    (negamax 0 b p prev alpha beta = calculate_heuristic b p) ∧
      (find_all_valid_moves b p = [] →
        negamax d b p true alpha beta = calculate_heuristic b p) := by
  constructor
  · rfl
  · intro h
    cases d with
    | zero => rfl
    | succ d' =>
      show negamaxStep (negamax d') b p true alpha beta = _
      unfold negamaxStep
      rw [h]
      rfl

/-- Claim C4, witness: the double-pass terminal case on the empty board. -/
theorem negamax_terminal_eval_witness :
    find_all_valid_moves emptyBoard Player.White = [] ∧
      negamax 5 emptyBoard Player.White true none none =
        calculate_heuristic emptyBoard Player.White :=
  ⟨by decide,
   (negamax_terminal_eval emptyBoard Player.White 5 true none none).2 (by decide)⟩

/-- Claim C2: with the move list and depth fixed, the root move chosen by the
pruned search equals the root move chosen by the same search with pruning
disabled. -/
theorem calculate_best_move_pruning_equiv (b : Board) (valid_moves : List Move)
    (player : Player) (_hne : valid_moves ≠ []) :
    calculate_best_move b valid_moves player =
      calculate_best_move_full b valid_moves player := by
  have hs : (fun mv =>
        - negamax 8 (get_board_after_move b player mv) player.opponent false none none)
      = (fun mv =>
          - negamax_full 8 (get_board_after_move b player mv) player.opponent false) :=
    funext fun mv => by rw [negamax_exact]
  unfold calculate_best_move calculate_best_move_full
  rw [hs]

/-- Claim C2, witness: a concrete non-empty candidate list on the opening
position. -/
theorem calculate_best_move_pruning_equiv_witness :
    ([((2 : Nat), (3 : Nat))] ≠ ([] : List Move)) ∧
      calculate_best_move initialBoard [(2, 3)] Player.Black =
        calculate_best_move_full initialBoard [(2, 3)] Player.Black :=
  ⟨by decide,
   calculate_best_move_pruning_equiv initialBoard [(2, 3)] Player.Black (by decide)⟩

/-- Claim C5: for a non-empty candidate list, `calculate_best_move` returns
the first-seen candidate of strictly greatest negated negamax score: the
result is a list element whose score no candidate exceeds and every earlier
candidate scores strictly below (left-to-right scan, strict-improvement
replacement, first-seen wins ties). -/
theorem calculate_best_move_first_argmax (b : Board) (player : Player)
    (valid_moves : List Move) (hne : valid_moves ≠ []) :
    ∃ i, ∃ hi : i < valid_moves.length,
      calculate_best_move b valid_moves player = valid_moves.get ⟨i, hi⟩ ∧
      (∀ j, ∀ hj : j < valid_moves.length,
        rootScore b player (valid_moves.get ⟨j, hj⟩) ≤
          rootScore b player (valid_moves.get ⟨i, hi⟩)) ∧
      (∀ j, ∀ hj : j < valid_moves.length, j < i →
        rootScore b player (valid_moves.get ⟨j, hj⟩) <
          rootScore b player (valid_moves.get ⟨i, hi⟩)) := by
  cases valid_moves with
  | nil => exact absurd rfl hne
  | cons m rest =>
    have hlen : (m :: rest).length = rest.length + 1 := rfl
    obtain ⟨rm, rv, heq, hrv, hcase⟩ :=
      bestMoveLoop_spec (rootScore b player) rest m (rootScore b player m) rfl
    have hres : calculate_best_move b (m :: rest) player = rm := by
      unfold calculate_best_move
      have hfun : (fun mv =>
          - negamax 8 (get_board_after_move b player mv) player.opponent false none none)
          = rootScore b player := rfl
      have hstep : bestMoveLoop (rootScore b player) (m :: rest) none
          = bestMoveLoop (rootScore b player) rest (some (m, rootScore b player m)) := rfl
      rw [hfun, hstep, heq]
      rfl
    rcases hcase with ⟨hrm, hrveq, hall⟩ | ⟨k', hk', hrm, hlt', hstrict, hall⟩
    · refine ⟨0, Nat.succ_pos rest.length, ?_, ?_, ?_⟩
      · rw [hres]
        exact hrm
      · intro j hj
        rw [hlen] at hj
        cases j with
        | zero => exact le_refl _
        | succ j' =>
          have hj' : j' < rest.length := by omega
          show rootScore b player (rest.get ⟨j', hj'⟩) ≤ rootScore b player m
          exact hall _ (List.get_mem rest j' hj')
      · intro j hj hj0
        exact absurd hj0 (Nat.not_lt_zero j)
    · have hrv' : rv = rootScore b player (rest.get ⟨k', hk'⟩) := by rw [hrv, hrm]
      refine ⟨k' + 1, by rw [hlen]; omega, ?_, ?_, ?_⟩
      · rw [hres]
        exact hrm
      · intro j hj
        rw [hlen] at hj
        cases j with
        | zero =>
          show rootScore b player m ≤ rootScore b player (rest.get ⟨k', hk'⟩)
          omega
        | succ j' =>
          have hj' : j' < rest.length := by omega
          show rootScore b player (rest.get ⟨j', hj'⟩) ≤
            rootScore b player (rest.get ⟨k', hk'⟩)
          rw [← hrv']
          exact hall j' hj'
      · intro j hj hjk
        rw [hlen] at hj
        cases j with
        | zero =>
          show rootScore b player m < rootScore b player (rest.get ⟨k', hk'⟩)
          omega
        | succ j' =>
          have hj' : j' < rest.length := by omega
          show rootScore b player (rest.get ⟨j', hj'⟩) <
            rootScore b player (rest.get ⟨k', hk'⟩)
          rw [← hrv']
          exact hstrict j' hj' (by omega)

/-- Claim C5, witness: two concrete candidates on the opening position. -/
theorem calculate_best_move_first_argmax_witness :
    (([(2, 3), (3, 2)] : List Move) ≠ []) ∧
    (∃ i, ∃ hi : i < ([(2, 3), (3, 2)] : List Move).length,
      calculate_best_move initialBoard [(2, 3), (3, 2)] Player.Black =
        ([(2, 3), (3, 2)] : List Move).get ⟨i, hi⟩ ∧
      (∀ j, ∀ hj : j < ([(2, 3), (3, 2)] : List Move).length,
        rootScore initialBoard Player.Black (([(2, 3), (3, 2)] : List Move).get ⟨j, hj⟩) ≤
          rootScore initialBoard Player.Black (([(2, 3), (3, 2)] : List Move).get ⟨i, hi⟩)) ∧
      (∀ j, ∀ hj : j < ([(2, 3), (3, 2)] : List Move).length, j < i →
        rootScore initialBoard Player.Black (([(2, 3), (3, 2)] : List Move).get ⟨j, hj⟩) <
          rootScore initialBoard Player.Black (([(2, 3), (3, 2)] : List Move).get ⟨i, hi⟩))) :=
  ⟨by decide,
   calculate_best_move_first_argmax initialBoard Player.Black [(2, 3), (3, 2)] (by decide)⟩

/-- Claim C6: `calculate_best_move` takes no depth input at all — it is
definitionally the depth-8 instance of the depth-generic search, for every
board, candidate list and player; the caller-supplied `recursion_depth` of
the move request therefore cannot influence it.  (Supports the code-bug
verdict: the depth is hard-coded, not caller-supplied.) -/
theorem calculate_best_move_depth_hardcoded (b : Board) (valid_moves : List Move)
    (player : Player) :
    calculate_best_move b valid_moves player =
      calculate_best_move_at_depth 8 b valid_moves player := rfl

/-- Claim C7, counterexample: the edge cell (0,1) carries weight 2 while the
non-edge cell (3,3) carries weight 6, so "corner and edge cells carry the
highest weights" is false of the table. -/
theorem weights_edge_not_highest :
    isEdge 0 1 ∧ ¬ isCorner 3 3 ∧ ¬ isEdge 3 3 ∧
      OTHELLO_WEIGHTS 0 1 < OTHELLO_WEIGHTS 3 3 := by
  decide

/-- Claim C7, amended: `calculate_heuristic` sums the fixed weight table over
the cells taken by the player; in the table the corners carry the strictly
highest weight, and the cells adjacent to a corner carry the lowest weights
(strictly below every other cell); edge cells other than corners are not the
highest-weighted cells. -/
theorem calculate_heuristic_weighted_sum (b : Board) (player : Player) :
    (calculate_heuristic b player =
      ∑ ij : Fin 8 × Fin 8,
        (if b.grid ij.1 ij.2 = Cell.Taken player then OTHELLO_WEIGHTS ij.1 ij.2 else 0)) ∧
    (∀ i j i' j' : Fin 8, isCorner i j → ¬ isCorner i' j' →
      OTHELLO_WEIGHTS i' j' < OTHELLO_WEIGHTS i j) ∧
    (∀ i j i' j' : Fin 8, adjacentToCorner i j → ¬ adjacentToCorner i' j' →
      OTHELLO_WEIGHTS i j < OTHELLO_WEIGHTS i' j') :=
  ⟨calculate_weighted_piece_positions_sum b player, by decide, by decide⟩

/-- Claim C7, witness: the sum at the opening position, and concrete
instantiations of the two table-shape conjuncts. -/
theorem calculate_heuristic_weighted_sum_witness :
    (calculate_heuristic initialBoard Player.Black =
      ∑ ij : Fin 8 × Fin 8,
        (if initialBoard.grid ij.1 ij.2 = Cell.Taken Player.Black then
          OTHELLO_WEIGHTS ij.1 ij.2 else 0)) ∧
    (isCorner 0 0 ∧ ¬ isCorner 3 3 ∧ OTHELLO_WEIGHTS 3 3 < OTHELLO_WEIGHTS 0 0) ∧
    (adjacentToCorner 1 1 ∧ ¬ adjacentToCorner 3 3 ∧
      OTHELLO_WEIGHTS 1 1 < OTHELLO_WEIGHTS 3 3) :=
  ⟨(calculate_heuristic_weighted_sum initialBoard Player.Black).1,
   ⟨by decide, by decide,
    (calculate_heuristic_weighted_sum initialBoard Player.Black).2.1 0 0 3 3
      (by decide) (by decide)⟩,
   ⟨by decide, by decide,
    (calculate_heuristic_weighted_sum initialBoard Player.Black).2.2 1 1 3 3
      (by decide) (by decide)⟩⟩

/-- Claim C8: an in-flight AI result whose board snapshot differs from the
current grid, or whose player is not the expected mover, is discarded:
`make_move` is not reached, and the board, phase and valid-move list are
unchanged (only the awaiting flag clears; an out-of-range coordinate may
additionally disable the AI, which touches none of these fields). -/
theorem tick_ai_stale_result_discarded (g : Game) (player : Player) (mr : MoveResult)
    (hstale : mr.board.grid ≠ g.board.grid ∨ mr.player ≠ player) :
    (tick_ai_on_result g player mr).board = g.board ∧
    (tick_ai_on_result g player mr).current_phase = g.current_phase ∧
    (tick_ai_on_result g player mr).valid_moves = g.valid_moves := by
  unfold tick_ai_on_result
  by_cases hrange : mr.next_move.1 < Board.SIZE ∧ mr.next_move.2 < Board.SIZE
  · rw [if_pos hrange,
      if_neg (fun hC => hstale.elim (fun h => h hC.1) (fun h => h hC.2))]
    exact ⟨rfl, rfl, rfl⟩
  · rw [if_neg hrange]
    exact ⟨rfl, rfl, rfl⟩

/-- Claim C8, witness: a result computed against the empty board arriving
while the game is at the opening position. -/
theorem tick_ai_stale_result_discarded_witness :
    ((⟨emptyBoard, Player.Black, (2, 3)⟩ : MoveResult).board.grid ≠ game0.board.grid ∨
      (⟨emptyBoard, Player.Black, (2, 3)⟩ : MoveResult).player ≠ Player.Black) ∧
    ((tick_ai_on_result game0 Player.Black ⟨emptyBoard, Player.Black, (2, 3)⟩).board =
        game0.board ∧
      (tick_ai_on_result game0 Player.Black ⟨emptyBoard, Player.Black, (2, 3)⟩).current_phase =
        game0.current_phase ∧
      (tick_ai_on_result game0 Player.Black ⟨emptyBoard, Player.Black, (2, 3)⟩).valid_moves =
        game0.valid_moves) :=
  ⟨Or.inl (by decide),
   tick_ai_stale_result_discarded game0 Player.Black _ (Or.inl (by decide))⟩

/-- Claim C9: a result whose chosen move is out of range (the "no legal move"
sentinel) disables the AI for that player and applies no move: the board and
phase are unchanged. -/
theorem tick_ai_out_of_range_disables_ai (g : Game) (player : Player) (mr : MoveResult)
    (hrange : ¬ (mr.next_move.1 < Board.SIZE ∧ mr.next_move.2 < Board.SIZE)) :
    ((tick_ai_on_result g player mr).player_options player).ai_enabled = false ∧
    (tick_ai_on_result g player mr).board = g.board ∧
    (tick_ai_on_result g player mr).current_phase = g.current_phase := by
  unfold tick_ai_on_result
  rw [if_neg hrange]
  refine ⟨?_, rfl, rfl⟩
  simp

/-- Claim C9, witness: the sentinel coordinate (8, 8). -/
theorem tick_ai_out_of_range_disables_ai_witness :
    (¬ ((⟨initialBoard, Player.Black, (8, 8)⟩ : MoveResult).next_move.1 < Board.SIZE ∧
        (⟨initialBoard, Player.Black, (8, 8)⟩ : MoveResult).next_move.2 < Board.SIZE)) ∧
    (((tick_ai_on_result game0 Player.Black ⟨initialBoard, Player.Black, (8, 8)⟩).player_options
        Player.Black).ai_enabled = false ∧
      (tick_ai_on_result game0 Player.Black ⟨initialBoard, Player.Black, (8, 8)⟩).board =
        game0.board ∧
      (tick_ai_on_result game0 Player.Black ⟨initialBoard, Player.Black, (8, 8)⟩).current_phase =
        game0.current_phase) :=
  ⟨by decide,
   tick_ai_out_of_range_disables_ai game0 Player.Black _ (by decide)⟩

/-- Claim C10, counterexample: moving onto a cell one already owns is illegal
(`find_flip_cells_for_move` returns false), and the returned board equals the
input board — it does NOT differ at the move cell, contradicting the claim's
final clause. -/
theorem get_board_after_move_illegal_unchanged :
    (find_flip_cells_for_move cornerBoard Player.Black (0, 0)).1 = false ∧
      get_board_after_move cornerBoard Player.Black (0, 0) = cornerBoard := by
  constructor
  · decide
  · decide

/-- Claim C10, amended: for every in-range move, the returned board agrees
with the input everywhere except the move cell and the reported flip cells,
all of which hold `Taken(player)` — the move cell is written unconditionally
— and the returned board differs from the input at the move cell whenever
that cell did not already hold `Taken(player)`. -/
theorem get_board_after_move_frame (b : Board) (player : Player) (r c : Nat)
    (hr : r < 8) (hc : c < 8) :
    (∀ i j : Fin 8,
      (get_board_after_move b player (r, c)).grid i j =
        if ((i : Nat) = r ∧ (j : Nat) = c) ∨
            ((i : Nat), (j : Nat)) ∈ (find_flip_cells_for_move b player (r, c)).2 then
          Cell.Taken player
        else b.grid i j) ∧
    (b.grid ⟨r, hr⟩ ⟨c, hc⟩ ≠ Cell.Taken player →
      (get_board_after_move b player (r, c)).grid ⟨r, hr⟩ ⟨c, hc⟩ ≠
        b.grid ⟨r, hr⟩ ⟨c, hc⟩) := by
  constructor
  · intro i j
    exact get_board_after_move_grid b player (r, c) i j
  · intro hne
    rw [get_board_after_move_grid b player (r, c), if_pos (Or.inl ⟨rfl, rfl⟩)]
    exact fun h => hne h.symm

/-- Claim C10, witness: Black playing (0,0) on the empty board (an illegal
move with no flips: the move cell is still written). -/
theorem get_board_after_move_frame_witness :
    ((0 : Nat) < 8) ∧
    (emptyBoard.grid 0 0 ≠ Cell.Taken Player.Black) ∧
    ((get_board_after_move emptyBoard Player.Black (0, 0)).grid 0 0 ≠
      emptyBoard.grid 0 0) :=
  ⟨by decide, by decide,
   (get_board_after_move_frame emptyBoard Player.Black 0 0 (by decide) (by decide)).2
     (by decide)⟩

end Othello
